import Mathlib

/-!
Verification of the absori ionized-absorption engine
(`bb_astromodels/xray/absorption.py`): the ionization-balance solver
`_calc_num`, the cross-section interpolator `_interpolate_sigma`, the opacity
reducer `_calc_opacity`, the evaluation entry points `Absori.evaluate` and
`Integrate_Absori.evaluate`, and the precomputed `deltaE` grid from `_setup`.

The tables (`_ion`, `_sigma`, `_atomicnumber`, `_base_energy`, `_abundance`)
are loaded from external data files at startup; here they are carried as a
parameter `t : Table`, with the data-contract invariants of the loader
collected in `TableInv`.  Python float arithmetic is modelled by exact real
arithmetic; `10 ** x`, `np.power(base, float)` become `Real.rpow`.  The arrays
have fixed shapes `(10, 26, ...)` with `_max_atomicnumber = 26` (iron), so
stage indices run over `Finset.range 26` and element indices over
`Finset.range 10` exactly as in the numpy code.
-/

namespace Absori

/-- The immutable tables loaded at `_setup` time.
`ion e s k` = `self._ion[e][s][k]` (10 coefficients per element/stage),
`sig e s b` = `self._sigma[e][s][b]` *before* the transpose in `_setup`
(so the transposed `self._sigma[b][s][e]` of the code is `sig e s b`),
`Z e` = `self._atomicnumber[e]`, `baseEnergy b` = `self._base_energy[b]`
(meaningful for `b ≤ 720`), `abundance e` = `self._abundance[e]`. -/
structure Table where
  ion : ℕ → ℕ → ℕ → ℝ
  sig : ℕ → ℕ → ℕ → ℝ
  Z : ℕ → ℕ
  baseEnergy : ℕ → ℝ
  abundance : ℕ → ℝ

/-- Data-contract invariants guaranteed by the loaders (`_load_sigma`,
`_load_abundance`): each of the 10 elements has an atomic number between 1
(hydrogen) and 26 (iron), the 721-point energy grid is strictly increasing
and starts positive, and cross-sections and abundance ratios are
nonnegative physical quantities. -/
def TableInv (t : Table) : Prop :=
  (∀ e < 10, 1 ≤ t.Z e ∧ t.Z e ≤ 26) ∧
  (∀ j < 720, t.baseEnergy j < t.baseEnergy (j + 1)) ∧
  0 < t.baseEnergy 0 ∧
  (∀ e s b, 0 ≤ t.sig e s b) ∧
  (∀ e, 0 ≤ t.abundance e)

/-! ## `_setup`: the precomputed `deltaE` bin widths -/

/-- The array `self._deltaE` from `_setup`: `deltaE[0] = be[1]-be[0]`,
`deltaE[720] = be[720]-be[719]`, `deltaE[i] = (be[i+1]-be[i-1])/2`
for `1 ≤ i ≤ 719`. -/
noncomputable def deltaE (be : ℕ → ℝ) (i : ℕ) : ℝ :=
  if i = 0 then be 1 - be 0
  else if i = 720 then be 720 - be 719
  else (be (i + 1) - be (i - 1)) / 2

/-- The trapezoidal-rule quadrature weights over the same grid, following the
spec's words ("trapezoidal bin widths", §3): interior weight
`(be[i+1]-be[i-1])/2`, end weights `(be[1]-be[0])/2` and
`(be[720]-be[719])/2`.  Stated from the spec for comparison with `deltaE`. -/
noncomputable def trapWeight (be : ℕ → ℝ) (i : ℕ) : ℝ :=
  if i = 0 then (be 1 - be 0) / 2
  else if i = 720 then (be 720 - be 719) / 2
  else (be (i + 1) - be (i - 1)) / 2

/-- Modelled from the spec: `calc_ion_spec_numba` lives in
`bb_astromodels/utils/numba_functions.py`, which is not part of the sources
here; spec §4.3 defines the memoized `_calc_ion_spec(gamma)` as
`spec[bin] = E^(-gamma) * deltaE[bin]` at each base-energy grid point. -/
noncomputable def calcIonSpec (t : Table) (gamma : ℝ) (b : ℕ) : ℝ :=
  t.baseEnergy b ^ (-gamma) * deltaE t.baseEnergy b

/-! ## `_calc_num`: the ionization-balance solver -/

/-- The quantity `t4 = 0.0001 * temp` (temperature in units of `10^4` K). -/
noncomputable def t4v (temp : ℝ) : ℝ := 0.0001 * temp

/-- The prefactor `tfact = 1.033e-3 / sqrt(t4)`. -/
noncomputable def tfact (temp : ℝ) : ℝ := 1.033e-3 / Real.sqrt (t4v temp)

/-- The log ionization parameter `xil`: `-100` for `xi ≤ 0`, else `log(xi)`. -/
noncomputable def xilog (xi : ℝ) : ℝ := if xi ≤ 0 then -100 else Real.log xi

/-- The generic recombination rate `arec` built from the stored coefficients:
`ion[:,:,1]*t4**(-ion[:,:,2]) + ion[:,:,3]*t4**(-1.5)*e1*(1+ion[:,:,5]*e2)`
with `e1 = exp(-ion[:,:,4]/t4)`, `e2 = exp(-ion[:,:,6]/t4)`. -/
noncomputable def arecBase (t : Table) (temp : ℝ) (e s : ℕ) : ℝ :=
  t.ion e s 1 * t4v temp ^ (-(t.ion e s 2)) +
    t.ion e s 3 * t4v temp ^ (-(1.5 : ℝ)) *
      Real.exp (-(t.ion e s 4) / t4v temp) *
      (1 + t.ion e s 5 * Real.exp (-(t.ion e s 6) / t4v temp))

/-- The rate `arec2 = tfact * z2 * (1.735 + log(y) + 1/(6*y))`, `y = 15.8*z2/t4`:
the closed-form recombination rate for the fully-stripped state. -/
noncomputable def arecBare (t : Table) (temp : ℝ) (e : ℕ) : ℝ :=
  tfact temp * (t.Z e : ℝ) ^ 2 *
    (1.735 + Real.log (15.8 * (t.Z e : ℝ) ^ 2 / t4v temp) +
      1 / (6 * (15.8 * (t.Z e : ℝ) ^ 2 / t4v temp)))

/-- The rate table `arec` after the `mask_2` overwrite: the row `s = Z[e]-1` receives the
bare-state rate `arec2`, every other row the generic rate. -/
noncomputable def arec (t : Table) (temp : ℝ) (e s : ℕ) : ℝ :=
  if s = t.Z e - 1 then arecBare t temp e else arecBase t temp e s

/-- The integral `intgral = np.sum(self._sigma.T * spec, axis=2)`: the photoionization
integral over the 721 energy bins. -/
noncomputable def intgral (t : Table) (spec : ℕ → ℝ) (e s : ℕ) : ℝ :=
  ∑ b in Finset.range 721, t.sig e s b * spec b

/-- The log rate ratio: `log(3.2749e-6 * intgral / arec)` where `arec ≠ 0`, else 0. -/
noncomputable def lograt (t : Table) (spec : ℕ → ℝ) (temp : ℝ) (e s : ℕ) : ℝ :=
  if arec t temp e s ≠ 0 then
    Real.log (3.2749e-6 * intgral t spec e s / arec t temp e s)
  else 0

/-- Partial sums of `ratio` along the stage axis: `cumRat e s = Σ_{j<s} ratio[e][j]`.
The code's inclusive `ratcumsum[e][k]` is `cumRat e (k+1)`. -/
noncomputable def cumRat (t : Table) (spec : ℕ → ℝ) (temp : ℝ) (e s : ℕ) : ℝ :=
  ∑ j in Finset.range s, lograt t spec temp e j

/-- The exponent array `mul = ratcumsum + arange(1, 27)*xil`, with invalid stages
(`s ≥ Z[e]`) forced to the sentinel `-(10^99)`. -/
noncomputable def mulM (t : Table) (spec : ℕ → ℝ) (temp xi : ℝ) (e s : ℕ) : ℝ :=
  if s < t.Z e then cumRat t spec temp e (s + 1) + (s + 1 : ℕ) * xilog xi
  else -(10 ^ 99 : ℝ)

/-- The maximum `mult = np.max(mul, axis=1)`: the per-element stabilizing maximum. -/
noncomputable def multM (t : Table) (spec : ℕ → ℝ) (temp xi : ℝ) (e : ℕ) : ℝ :=
  (Finset.range 26).sup' (Finset.nonempty_range_iff.mpr (by norm_num))
    (mulM t spec temp xi e)

/-- The denominator `s = Σ emul + exp(-mult)` with `emul = exp(mul - mult)` zeroed at
invalid stages: the normalization denominator. -/
noncomputable def sdenom (t : Table) (spec : ℕ → ℝ) (temp xi : ℝ) (e : ℕ) : ℝ :=
  (∑ s in Finset.range 26,
      if s < t.Z e then Real.exp (mulM t spec temp xi e s - multM t spec temp xi e)
      else 0) +
    Real.exp (-multM t spec temp xi e)

/-- The log-space population recursion: `num[0] = -mult - log(s)` and
`num[j] = num[j-1] + ratio[:,j-1] + xil` for `j = 1..25`. -/
noncomputable def calcNumLog (t : Table) (spec : ℕ → ℝ) (temp xi : ℝ) (e : ℕ) :
    ℕ → ℝ
  | 0 => -multM t spec temp xi e - Real.log (sdenom t spec temp xi e)
  | s + 1 => calcNumLog t spec temp xi e s + lograt t spec temp e s + xilog xi

/-- The population matrix `num[stage][element]` returned by `_calc_num`:
exponentiated log-populations, with invalid entries
(`stage ≥ Z[element]`, or outside the 26 stored rows) zeroed. -/
noncomputable def calcNum (t : Table) (spec : ℕ → ℝ) (temp xi : ℝ) (s e : ℕ) : ℝ :=
  if s < 26 ∧ s < t.Z e then Real.exp (calcNumLog t spec temp xi e s) else 0

/-- Sum of the population matrix over the stage axis for one element. -/
noncomputable def numStageSum (t : Table) (spec : ℕ → ℝ) (temp xi : ℝ) (e : ℕ) : ℝ :=
  ∑ s in Finset.range 26, calcNum t spec temp xi s e

/-- Population-weighted mean ionization stage of one element, as in the
spec's monotonic-ionization property (§8). -/
noncomputable def meanIon (t : Table) (spec : ℕ → ℝ) (temp xi : ℝ) (e : ℕ) : ℝ :=
  ∑ s in Finset.range 26, (s : ℝ) * calcNum t spec temp xi s e

/-- Mean ionization stage including the fully-stripped state: the matrix
rows only cover stages `0..Z-1`, and the missing stage `Z` (bare nucleus)
carries the remaining probability `1 - Σ num`. -/
noncomputable def meanIonFull (t : Table) (spec : ℕ → ℝ) (temp xi : ℝ) (e : ℕ) : ℝ :=
  meanIon t spec temp xi e + (t.Z e : ℝ) * (1 - numStageSum t spec temp xi e)

/-! ## `_interpolate_sigma`: the three-regime cross-section interpolator -/

/-- Index of the interpolation cell used for an in-range energy: the number
of grid points `≤ en`, minus one, clamped to the last cell `719`.  This is
the bracketing performed by `scipy.interpolate.interp1d` on the strictly
increasing grid. -/
noncomputable def cellIdx (t : Table) (en : ℝ) : ℕ :=
  min 719 (((Finset.range 721).filter fun b => t.baseEnergy b ≤ en).card - 1)

/-- Piecewise-linear interpolation of `sigma[·][s][e]` (the transposed table)
at energy `en` inside the grid, as `self._interp_sigma` does. -/
noncomputable def linInterp (t : Table) (en : ℝ) (s e : ℕ) : ℝ :=
  t.sig e s (cellIdx t en) +
    (t.sig e s (cellIdx t en + 1) - t.sig e s (cellIdx t en)) *
      (en - t.baseEnergy (cellIdx t en)) /
      (t.baseEnergy (cellIdx t en + 1) - t.baseEnergy (cellIdx t en))

/-- The high-energy power-law tail: the cross-section at the last grid point
scaled by `(en/baseEnergy[720])^(-3)`. -/
noncomputable def powerTail (t : Table) (en : ℝ) (s e : ℕ) : ℝ :=
  t.sig e s 720 * (en / t.baseEnergy 720) ^ (-(3 : ℝ))

/-- The interpolator `_interpolate_sigma` at one sample energy `ekev` (keV), for stage `s` and
element `e` (the code's `sigma[sample][stage][element]`):
`e = 1000*ekev`; samples above `baseEnergy[720]` (`mask1`) get the power-law
tail, samples below `baseEnergy[0]` (`mask2`) the first tabulated value, and
in-range samples (`mask3`) the linear interpolation. -/
noncomputable def interpSigma (t : Table) (ekev : ℝ) (s e : ℕ) : ℝ :=
  if t.baseEnergy 720 < 1000 * ekev then powerTail t (1000 * ekev) s e
  else if 1000 * ekev < t.baseEnergy 0 then t.sig e s 0
  else linInterp t (1000 * ekev) s e

/-! ## `_calc_opacity` and `Absori.evaluate` -/

/-- The abundance-offset adjustment applied to the copied abundance vector:
`ab[2:-1] *= 10**abundance` (elements C..S, indices 2..8) and
`ab[-1] *= 10**fe_abundance` (iron, index 9); H and He untouched. -/
noncomputable def adjustAbundance (ab : ℕ → ℝ) (m f : ℝ) (i : ℕ) : ℝ :=
  if 2 ≤ i ∧ i ≤ 8 then ab i * (10 : ℝ) ^ m
  else if i = 9 then ab i * (10 : ℝ) ^ f
  else ab i

/-- The reducer `_calc_opacity`: weight the population matrix by the adjusted abundances,
multiply by the interpolated cross-sections, sum over stages and elements,
and scale by `6.6e-5`; one opacity per input energy. -/
noncomputable def calcOpacity (t : Table) (es : List ℝ) (temp xi gamma m f : ℝ) :
    List ℝ :=
  es.map fun ej =>
    (∑ s in Finset.range 26, ∑ e in Finset.range 10,
        calcNum t (calcIonSpec t gamma) temp xi s e *
          adjustAbundance t.abundance m f e * interpSigma t ej s e) * 6.6e-5

/-- The reducer `_calc_opacity` as a state transformer on the stored table: the offsets
act on `np.copy(self._abundance)`, so the stored table comes back unchanged. -/
noncomputable def calcOpacityS (t : Table) (es : List ℝ) (temp xi gamma m f : ℝ) :
    Table × List ℝ :=
  (t, calcOpacity t es temp xi gamma m f)

/-- The entry point `Absori.evaluate`: blueshift the energies by `1 + redshift`, compute the
opacity, and return `exp(-NH * opacity)` per energy. -/
noncomputable def evaluate (t : Table) (x : List ℝ)
    (NH redshift temp xi gamma m f : ℝ) : List ℝ :=
  (calcOpacity t (x.map fun v => v * (1 + redshift)) temp xi gamma m f).map
    fun op => Real.exp (-(NH * op))

/-! ## `Integrate_Absori.evaluate`: the redshift-shell integrator -/

/-- The shell midpoint factor `z1 = zz + 1` at loop iteration `i`, given the
shell width `zsam` (the loop starts at `zz = zsam*0.5` and advances by
`zsam` per shell). -/
noncomputable def shellZ1 (zsam : ℝ) (i : ℕ) : ℝ := zsam * 0.5 + i * zsam + 1

/-- One shell's contribution to `taus` at source-frame energy `xj`:
`xsec * zf` with `xsec = Σ num*ab*sigma(x*z1) * 6.6e-5 * 1e-22` and
`zf = z1^2/sqrt(0.3*z1^3 + 0.7) * (zsam * c * n0*z1^delta * Mpc_cm / H0)`. -/
noncomputable def shellTau (t : Table) (xj n0 delta temp xi gamma m f zsam : ℝ)
    (i : ℕ) : ℝ :=
  (∑ s in Finset.range 26, ∑ e in Finset.range 10,
      calcNum t (calcIonSpec t gamma) temp xi s e *
        adjustAbundance t.abundance m f e *
        interpSigma t (xj * shellZ1 zsam i) s e) * 6.6e-5 * 1e-22 *
    (shellZ1 zsam i ^ 2 / Real.sqrt (0.3 * shellZ1 zsam i ^ 3 + 0.7) *
      (zsam * 2.99792458e5 * (n0 * shellZ1 zsam i ^ delta) * 3.08568e24 / 70))

/-- The entry point `Integrate_Absori.evaluate`: `nz = int(redshift/0.02)` shells; the very
next line `zsam = redshift / nz` divides by `nz` unguarded, so `nz = 0`
(any `redshift < 0.02`, including the parameter's default 0) raises a
`ZeroDivisionError` instead of producing a transmission; otherwise the
shell optical depths are accumulated and `exp(-taus)` returned. -/
noncomputable def evaluateIntegrated (t : Table) (x : List ℝ)
    (n0 delta redshift temp xi gamma m f : ℝ) : Except String (List ℝ) :=
  let nz : ℕ := (⌊redshift / 0.02⌋).toNat
  if nz = 0 then Except.error "ZeroDivisionError: float division by zero"
  else
    Except.ok <| x.map fun xj =>
      Real.exp (-(∑ i in Finset.range nz,
        shellTau t xj n0 delta temp xi gamma m f (redshift / (nz : ℝ)) i))

/-! ## Closed form of the solver's log-sum-exp normalization

State `0` is the neutral atom, state `s` (for `1 ≤ s ≤ Z`) the `s`-times
ionized one; the matrix rows are the states `0..Z-1`, and state `Z` (bare
nucleus) only enters through the normalization denominator. -/

/-- Unnormalized weight of state `s`: `exp(Σ_{j<s} ratio[j] + s*xil)`. -/
noncomputable def stageW (t : Table) (spec : ℕ → ℝ) (temp xi : ℝ) (e s : ℕ) : ℝ :=
  Real.exp (cumRat t spec temp e s + (s : ℝ) * xilog xi)

/-- Total weight of all `Z+1` states of element `e`. -/
noncomputable def stageWsum (t : Table) (spec : ℕ → ℝ) (temp xi : ℝ) (e : ℕ) : ℝ :=
  ∑ s in Finset.range (t.Z e + 1), stageW t spec temp xi e s

theorem stageW_zero (t : Table) (spec : ℕ → ℝ) (temp xi : ℝ) (e : ℕ) :
    stageW t spec temp xi e 0 = 1 := by
  simp [stageW, cumRat]

theorem stageW_pos (t : Table) (spec : ℕ → ℝ) (temp xi : ℝ) (e s : ℕ) :
    0 < stageW t spec temp xi e s := Real.exp_pos _

theorem stageWsum_pos (t : Table) (spec : ℕ → ℝ) (temp xi : ℝ) (e : ℕ) :
    0 < stageWsum t spec temp xi e :=
  Finset.sum_pos (fun s _ => stageW_pos t spec temp xi e s)
    (Finset.nonempty_range_iff.mpr (Nat.succ_ne_zero _))

/-- Restricting a `range N` sum by an `if s < Z` guard with `Z ≤ N`. -/
theorem sum_range_ite (N Z : ℕ) (hZ : Z ≤ N) (f : ℕ → ℝ) :
    (∑ s in Finset.range N, if s < Z then f s else 0) =
      ∑ s in Finset.range Z, f s := by
  rw [← Finset.sum_subset (Finset.range_subset.mpr hZ)]
  · exact Finset.sum_congr rfl fun s hs => by simp [Finset.mem_range.mp hs]
  · intro s _ hs
    have hns : ¬s < Z := fun h => hs (Finset.mem_range.mpr h)
    simp [hns]

/-- The stabilizing subtraction of `mult` cancels: the denominator `s` of
the code times `exp(mult)` is the total state weight. -/
theorem sdenom_mul_exp (t : Table) (spec : ℕ → ℝ) (temp xi : ℝ) (e : ℕ)
    (hZ : t.Z e ≤ 26) :
    sdenom t spec temp xi e * Real.exp (multM t spec temp xi e) =
      stageWsum t spec temp xi e := by
  unfold sdenom stageWsum
  rw [add_mul, Finset.sum_mul, ← Real.exp_add, neg_add_cancel, Real.exp_zero]
  have hterm : ∀ s ∈ Finset.range 26,
      (if s < t.Z e then
          Real.exp (mulM t spec temp xi e s - multM t spec temp xi e) else 0) *
        Real.exp (multM t spec temp xi e) =
      if s < t.Z e then stageW t spec temp xi e (s + 1) else 0 := by
    intro s _
    split_ifs with h
    · rw [← Real.exp_add, mulM, if_pos h, stageW]
      push_cast
      ring_nf
    · rw [zero_mul]
  rw [Finset.sum_congr rfl hterm, sum_range_ite 26 (t.Z e) hZ,
    Finset.sum_range_succ' (stageW t spec temp xi e) (t.Z e),
    stageW_zero]

theorem sdenom_eq (t : Table) (spec : ℕ → ℝ) (temp xi : ℝ) (e : ℕ)
    (hZ : t.Z e ≤ 26) :
    sdenom t spec temp xi e =
      stageWsum t spec temp xi e * Real.exp (-multM t spec temp xi e) := by
  rw [← sdenom_mul_exp t spec temp xi e hZ, mul_assoc, ← Real.exp_add,
    add_neg_cancel, Real.exp_zero, mul_one]

theorem sdenom_pos (t : Table) (spec : ℕ → ℝ) (temp xi : ℝ) (e : ℕ)
    (hZ : t.Z e ≤ 26) : 0 < sdenom t spec temp xi e := by
  rw [sdenom_eq t spec temp xi e hZ]
  exact mul_pos (stageWsum_pos t spec temp xi e) (Real.exp_pos _)

/-- Closed form of the log-space recursion: the exponentiated row `s` is the
normalized weight of state `s`. -/
theorem calcNumLog_exp (t : Table) (spec : ℕ → ℝ) (temp xi : ℝ) (e : ℕ)
    (hZ : t.Z e ≤ 26) (s : ℕ) :
    Real.exp (calcNumLog t spec temp xi e s) =
      stageW t spec temp xi e s / stageWsum t spec temp xi e := by
  induction s with
  | zero =>
    show Real.exp (-multM t spec temp xi e - Real.log (sdenom t spec temp xi e)) = _
    rw [Real.exp_sub, Real.exp_log (sdenom_pos t spec temp xi e hZ),
      sdenom_eq t spec temp xi e hZ, stageW_zero]
    have hW : stageWsum t spec temp xi e ≠ 0 := (stageWsum_pos t spec temp xi e).ne'
    have hE : Real.exp (-multM t spec temp xi e) ≠ 0 := (Real.exp_pos _).ne'
    field_simp
    ring
  | succ s ih =>
    show Real.exp (calcNumLog t spec temp xi e s + lograt t spec temp e s + xilog xi) = _
    rw [Real.exp_add, Real.exp_add, ih, stageW, stageW,
      show cumRat t spec temp e (s + 1) =
          cumRat t spec temp e s + lograt t spec temp e s from
        Finset.sum_range_succ _ s]
    rw [div_mul_eq_mul_div, div_mul_eq_mul_div, ← Real.exp_add, ← Real.exp_add]
    push_cast
    ring_nf

/-- Entries at invalid stages are exactly zero. -/
theorem calcNum_invalid (t : Table) (spec : ℕ → ℝ) (temp xi : ℝ) (s e : ℕ)
    (h : t.Z e ≤ s) : calcNum t spec temp xi s e = 0 := by
  rw [calcNum, if_neg]
  rintro ⟨-, h2⟩
  omega

theorem calcNum_nonneg (t : Table) (spec : ℕ → ℝ) (temp xi : ℝ) (s e : ℕ) :
    0 ≤ calcNum t spec temp xi s e := by
  rw [calcNum]
  split_ifs
  · exact (Real.exp_pos _).le
  · exact le_refl 0

/-- The per-element population sum in closed form: the total weight minus the
weight of the dropped bare state, over the total weight. -/
theorem numStageSum_eq (t : Table) (spec : ℕ → ℝ) (temp xi : ℝ) (e : ℕ)
    (hZ : t.Z e ≤ 26) :
    numStageSum t spec temp xi e =
      (stageWsum t spec temp xi e - stageW t spec temp xi e (t.Z e)) /
        stageWsum t spec temp xi e := by
  unfold numStageSum
  have hterm : ∀ s ∈ Finset.range 26,
      calcNum t spec temp xi s e =
        if s < t.Z e then
          stageW t spec temp xi e s / stageWsum t spec temp xi e else 0 := by
    intro s hs
    rw [calcNum]
    rcases Nat.lt_or_ge s (t.Z e) with h | h
    · rw [if_pos ⟨Finset.mem_range.mp hs, h⟩, if_pos h,
        calcNumLog_exp t spec temp xi e hZ s]
    · rw [if_neg (by omega), if_neg (by omega)]
  rw [Finset.sum_congr rfl hterm, sum_range_ite 26 (t.Z e) hZ, ← Finset.sum_div,
    show stageWsum t spec temp xi e =
      (∑ s in Finset.range (t.Z e), stageW t spec temp xi e s) +
        stageW t spec temp xi e (t.Z e) from Finset.sum_range_succ _ _]
  ring_nf

theorem numStageSum_lt_one (t : Table) (spec : ℕ → ℝ) (temp xi : ℝ) (e : ℕ)
    (hZ : t.Z e ≤ 26) : numStageSum t spec temp xi e < 1 := by
  rw [numStageSum_eq t spec temp xi e hZ]
  rw [div_lt_one (stageWsum_pos t spec temp xi e)]
  have := stageW_pos t spec temp xi e (t.Z e)
  linarith

theorem numStageSum_pos (t : Table) (spec : ℕ → ℝ) (temp xi : ℝ) (e : ℕ)
    (h1 : 1 ≤ t.Z e) (hZ : t.Z e ≤ 26) : 0 < numStageSum t spec temp xi e := by
  rw [numStageSum_eq t spec temp xi e hZ]
  apply div_pos _ (stageWsum_pos t spec temp xi e)
  rw [show stageWsum t spec temp xi e =
      (∑ s in Finset.range (t.Z e), stageW t spec temp xi e s) +
        stageW t spec temp xi e (t.Z e) from Finset.sum_range_succ _ _]
  have hpos : 0 < ∑ s in Finset.range (t.Z e), stageW t spec temp xi e s :=
    Finset.sum_pos (fun s _ => stageW_pos t spec temp xi e s)
      (Finset.nonempty_range_iff.mpr (by omega))
  linarith

/-! ## Mean ionization stage as a Boltzmann-type average -/

theorem meanIon_eq (t : Table) (spec : ℕ → ℝ) (temp xi : ℝ) (e : ℕ)
    (hZ : t.Z e ≤ 26) :
    meanIon t spec temp xi e =
      (∑ s in Finset.range (t.Z e), (s : ℝ) * stageW t spec temp xi e s) /
        stageWsum t spec temp xi e := by
  unfold meanIon
  have hterm : ∀ s ∈ Finset.range 26,
      (s : ℝ) * calcNum t spec temp xi s e =
        if s < t.Z e then
          (s : ℝ) * stageW t spec temp xi e s / stageWsum t spec temp xi e
        else 0 := by
    intro s hs
    rw [calcNum]
    rcases Nat.lt_or_ge s (t.Z e) with h | h
    · rw [if_pos ⟨Finset.mem_range.mp hs, h⟩, if_pos h,
        calcNumLog_exp t spec temp xi e hZ s, mul_div_assoc]
    · rw [if_neg (by omega), if_neg (by omega), mul_zero]
  rw [Finset.sum_congr rfl hterm, sum_range_ite 26 (t.Z e) hZ, ← Finset.sum_div]

/-- The bare-state-completed mean is exactly the weighted average of the
state index over all `Z+1` states. -/
theorem meanIonFull_eq (t : Table) (spec : ℕ → ℝ) (temp xi : ℝ) (e : ℕ)
    (hZ : t.Z e ≤ 26) :
    meanIonFull t spec temp xi e =
      (∑ s in Finset.range (t.Z e + 1), (s : ℝ) * stageW t spec temp xi e s) /
        stageWsum t spec temp xi e := by
  rw [meanIonFull, meanIon_eq t spec temp xi e hZ, numStageSum_eq t spec temp xi e hZ,
    Finset.sum_range_succ (fun s => (s : ℝ) * stageW t spec temp xi e s) (t.Z e)]
  have hW : stageWsum t spec temp xi e ≠ 0 := (stageWsum_pos t spec temp xi e).ne'
  field_simp

/-- Chebyshev-type correlation inequality: against strictly positive weights
`u`, multiplying by a strictly increasing positive factor `v` strictly
increases the weighted mean of the index.  Stated as the cross-multiplied
inequality. -/
theorem index_mean_cheb (n : ℕ) (hn : 1 ≤ n) (u v : ℕ → ℝ)
    (hu : ∀ s, 0 < u s) (hv : ∀ s t : ℕ, s < t → v s < v t) :
    (∑ s in Finset.range (n + 1), (s : ℝ) * u s) *
        (∑ s in Finset.range (n + 1), u s * v s) <
      (∑ s in Finset.range (n + 1), (s : ℝ) * (u s * v s)) *
        (∑ s in Finset.range (n + 1), u s) := by
  have hv_le : ∀ s t : ℕ, s ≤ t → v s ≤ v t := by
    intro s t h
    rcases Nat.lt_or_ge s t with h' | h'
    · exact (hv s t h').le
    · have : s = t := le_antisymm h h'
      rw [this]
  set R := Finset.range (n + 1) with hR
  have hN1 : (∑ s in R, ∑ tt in R, (s : ℝ) * (u s * v s) * u tt) =
      (∑ s in R, (s : ℝ) * (u s * v s)) * (∑ s in R, u s) :=
    (Finset.sum_mul_sum R R _ _).symm
  have hN2 : (∑ s in R, ∑ tt in R, (s : ℝ) * u s * (u tt * v tt)) =
      (∑ s in R, (s : ℝ) * u s) * (∑ s in R, u s * v s) :=
    (Finset.sum_mul_sum R R _ _).symm
  have hswap1 : (∑ s in R, ∑ tt in R, (tt : ℝ) * (u tt * v tt) * u s) =
      ∑ s in R, ∑ tt in R, (s : ℝ) * (u s * v s) * u tt :=
    Finset.sum_comm
  have hswap2 : (∑ s in R, ∑ tt in R, (tt : ℝ) * u tt * (u s * v s)) =
      ∑ s in R, ∑ tt in R, (s : ℝ) * u s * (u tt * v tt) :=
    Finset.sum_comm
  have key : (∑ s in R, ∑ tt in R,
        ((s : ℝ) - tt) * (v s - v tt) * (u s * u tt)) =
      2 * ((∑ s in R, (s : ℝ) * (u s * v s)) * (∑ s in R, u s) -
        (∑ s in R, (s : ℝ) * u s) * (∑ s in R, u s * v s)) := by
    have expand : ∀ s ∈ R, (∑ tt in R, ((s : ℝ) - tt) * (v s - v tt) * (u s * u tt)) =
        ((∑ tt in R, (s : ℝ) * (u s * v s) * u tt) -
          (∑ tt in R, (s : ℝ) * u s * (u tt * v tt))) +
        ((∑ tt in R, (tt : ℝ) * (u tt * v tt) * u s) -
          (∑ tt in R, (tt : ℝ) * u tt * (u s * v s))) := by
      intro s _
      rw [← Finset.sum_sub_distrib, ← Finset.sum_sub_distrib, ← Finset.sum_add_distrib]
      exact Finset.sum_congr rfl fun tt _ => by ring
    rw [Finset.sum_congr rfl expand, Finset.sum_add_distrib,
      Finset.sum_sub_distrib, Finset.sum_sub_distrib, hswap1, hswap2, hN1, hN2]
    ring
  have hpos : 0 < ∑ s in R, ∑ tt in R,
      ((s : ℝ) - tt) * (v s - v tt) * (u s * u tt) := by
    rw [← Finset.sum_product']
    apply Finset.sum_pos'
    · rintro ⟨s, tt⟩ -
      rcases le_total s tt with h | h
      · have h1 : (s : ℝ) - tt ≤ 0 := by
          have := (Nat.cast_le (α := ℝ)).mpr h
          linarith
        have h2 : v s - v tt ≤ 0 := by
          have := hv_le s tt h
          linarith
        have h3 : 0 ≤ ((s : ℝ) - tt) * (v s - v tt) := by nlinarith
        exact mul_nonneg h3 (mul_pos (hu s) (hu tt)).le
      · have h1 : (0 : ℝ) ≤ (s : ℝ) - tt := by
          have := (Nat.cast_le (α := ℝ)).mpr h
          linarith
        have h2 : (0 : ℝ) ≤ v s - v tt := by
          have := hv_le tt s h
          linarith
        exact mul_nonneg (mul_nonneg h1 h2) (mul_pos (hu s) (hu tt)).le
    · refine ⟨(1, 0), Finset.mem_product.mpr ⟨?_, ?_⟩, ?_⟩
      · exact Finset.mem_range.mpr (by omega)
      · exact Finset.mem_range.mpr (by omega)
      · have hv01 : v 0 < v 1 := hv 0 1 (by omega)
        have := mul_pos (hu 1) (hu 0)
        simp only [Nat.cast_one, Nat.cast_zero]
        nlinarith
  rw [key] at hpos
  linarith

/-- The bare-state-completed mean ionization is strictly increasing in `xi`
at fixed temperature. -/
theorem meanIonFull_strictMono (t : Table) (spec : ℕ → ℝ) (temp : ℝ) (e : ℕ)
    (h1 : 1 ≤ t.Z e) (hZ : t.Z e ≤ 26) (xi1 xi2 : ℝ) (hx1 : 0 < xi1)
    (h12 : xi1 < xi2) :
    meanIonFull t spec temp xi1 e < meanIonFull t spec temp xi2 e := by
  have hx2 : 0 < xi2 := lt_trans hx1 h12
  have hlog : Real.log xi1 < Real.log xi2 := Real.log_lt_log hx1 h12
  set d : ℝ := Real.log xi2 - Real.log xi1 with hd
  have hdpos : 0 < d := by simp [hd]; linarith
  set u : ℕ → ℝ := fun s => stageW t spec temp xi1 e s with hu_def
  set v : ℕ → ℝ := fun s => Real.exp ((s : ℝ) * d) with hv_def
  have hW2 : ∀ s : ℕ, stageW t spec temp xi2 e s = u s * v s := by
    intro s
    simp only [hu_def, hv_def, stageW, ← Real.exp_add]
    congr 1
    simp only [xilog]
    rw [if_neg (not_le.mpr hx2), if_neg (not_le.mpr hx1), hd]
    ring
  rw [meanIonFull_eq t spec temp xi1 e hZ, meanIonFull_eq t spec temp xi2 e hZ]
  unfold stageWsum
  rw [div_lt_div_iff₀ (Finset.sum_pos (fun s _ => stageW_pos t spec temp xi1 e s)
      (Finset.nonempty_range_iff.mpr (Nat.succ_ne_zero _)))
    (Finset.sum_pos (fun s _ => stageW_pos t spec temp xi2 e s)
      (Finset.nonempty_range_iff.mpr (Nat.succ_ne_zero _)))]
  have rw2a : ∀ s ∈ Finset.range (t.Z e + 1),
      (s : ℝ) * stageW t spec temp xi2 e s = (s : ℝ) * (u s * v s) := by
    intro s _
    rw [hW2 s]
  have rw2b : ∀ s ∈ Finset.range (t.Z e + 1),
      stageW t spec temp xi2 e s = u s * v s := by
    intro s _
    rw [hW2 s]
  rw [Finset.sum_congr rfl rw2a, Finset.sum_congr rfl rw2b]
  exact index_mean_cheb (t.Z e) h1 u v (fun s => stageW_pos t spec temp xi1 e s)
    (fun s tt hst => by
      simp only [hv_def]
      apply Real.exp_lt_exp.mpr
      have : (s : ℝ) < tt := (Nat.cast_lt (α := ℝ)).mpr hst
      nlinarith)

/-! ## Concrete table instances

`cTable` is a minimal admissible instance of the data contract (real atomic
numbers of H, He, C, N, O, Ne, Mg, Si, S, Fe; strictly increasing positive
grid); `tSix` additionally carries nonzero coefficients chosen to make the
He ionization balance explicitly computable. -/

noncomputable def cTable : Table where
  ion := fun _ _ _ => 0
  sig := fun _ _ _ => 0
  Z := fun e => [1, 2, 6, 7, 8, 10, 12, 14, 16, 26].getD e 1
  baseEnergy := fun j => (j : ℝ) + 1
  abundance := fun _ => 1

theorem cTable_inv : TableInv cTable := by
  refine ⟨by decide, ?_, by norm_num [cTable], fun _ _ _ => le_refl 0, fun _ => by norm_num [cTable]⟩
  intro j _
  show (j : ℝ) + 1 < (j + 1 : ℕ) + 1
  push_cast
  linarith

noncomputable def tSix : Table where
  ion := fun e s k => if e = 1 ∧ s = 0 ∧ k = 1 then 3.2749e-6 else 0
  sig := fun e s b =>
    if b = 0 ∧ e = 1 ∧ s = 0 then 1
    else if b = 0 ∧ e = 1 ∧ s = 1 then 10000 else 0
  Z := fun e => [1, 2, 6, 7, 8, 10, 12, 14, 16, 26].getD e 1
  baseEnergy := fun j => (j : ℝ) + 1
  abundance := fun _ => 1

noncomputable def specSix : ℕ → ℝ := fun b => if b = 0 then 1 else 0

/-- The bare-state recombination rate of He in `tSix` at `temp = 10^4` K. -/
noncomputable def aBare : ℝ := 1.033e-3 * 4 * (1.735 + Real.log 63.2 + 1 / 379.2)

/-- The ionization/recombination weight ratio of the He bare stage in `tSix`. -/
noncomputable def qval : ℝ := 3.2749e-2 / aBare

theorem tSix_Z_one : tSix.Z 1 = 2 := by decide

theorem aBare_pos : 0 < aBare := by
  have hlog : 0 < Real.log 63.2 := Real.log_pos (by norm_num)
  rw [aBare]
  nlinarith

theorem aBare_lt : aBare < 3.2749 := by
  have hlog : Real.log 63.2 < 63.2 - 1 :=
    Real.log_lt_sub_one_of_pos (by norm_num) (by norm_num)
  have hlog0 : 0 < Real.log 63.2 := Real.log_pos (by norm_num)
  rw [aBare]
  nlinarith

theorem qval_pos : 0 < qval := div_pos (by norm_num) aBare_pos

theorem qval_gt : 0.01 < qval := by
  rw [qval, lt_div_iff₀ aBare_pos]
  nlinarith [aBare_lt, aBare_pos]

theorem t4v_ten4 : t4v 10000 = 1 := by norm_num [t4v]

theorem arec_tSix_zero : arec tSix 10000 1 0 = 3.2749e-6 := by
  rw [arec, if_neg (by rw [tSix_Z_one]; decide), arecBase, t4v_ten4]
  norm_num [tSix, Real.one_rpow]

theorem arec_tSix_one : arec tSix 10000 1 1 = aBare := by
  rw [arec, if_pos (by rw [tSix_Z_one]), arecBare, t4v_ten4, tfact, t4v_ten4,
    Real.sqrt_one, tSix_Z_one, aBare]
  norm_num

theorem intgral_tSix_zero : intgral tSix specSix 1 0 = 1 := by
  rw [intgral, Finset.sum_eq_single 0]
  · norm_num [tSix, specSix]
  · intro b _ hb
    simp [specSix, hb]
  · exact fun h => absurd (Finset.mem_range.mpr (by norm_num)) h

theorem intgral_tSix_one : intgral tSix specSix 1 1 = 10000 := by
  rw [intgral, Finset.sum_eq_single 0]
  · norm_num [tSix, specSix]
  · intro b _ hb
    simp [specSix, hb]
  · exact fun h => absurd (Finset.mem_range.mpr (by norm_num)) h

theorem lograt_tSix_zero : lograt tSix specSix 10000 1 0 = 0 := by
  rw [lograt, arec_tSix_zero, intgral_tSix_zero, if_pos (by norm_num),
    show (3.2749e-6 * 1 / 3.2749e-6 : ℝ) = 1 by norm_num, Real.log_one]

theorem lograt_tSix_one : lograt tSix specSix 10000 1 1 = Real.log qval := by
  rw [lograt, arec_tSix_one, intgral_tSix_one, if_pos aBare_pos.ne', qval,
    show (3.2749e-6 * 10000 : ℝ) = 3.2749e-2 by norm_num]

theorem cumRat_tSix_one : cumRat tSix specSix 10000 1 1 = 0 := by
  rw [cumRat, Finset.sum_range_one, lograt_tSix_zero]

theorem cumRat_tSix_two : cumRat tSix specSix 10000 1 2 = Real.log qval := by
  rw [cumRat, Finset.sum_range_succ, Finset.sum_range_one, lograt_tSix_zero,
    lograt_tSix_one, zero_add]

theorem stageW_tSix_one (xi : ℝ) (hxi : 0 < xi) :
    stageW tSix specSix 10000 xi 1 1 = xi := by
  rw [stageW, cumRat_tSix_one, xilog, if_neg (not_le.mpr hxi)]
  rw [show (0 : ℝ) + (1 : ℕ) * Real.log xi = Real.log xi by push_cast; ring]
  exact Real.exp_log hxi

theorem stageW_tSix_two (xi : ℝ) (hxi : 0 < xi) :
    stageW tSix specSix 10000 xi 1 2 = qval * xi ^ 2 := by
  rw [stageW, cumRat_tSix_two, xilog, if_neg (not_le.mpr hxi)]
  rw [show Real.log qval + (2 : ℕ) * Real.log xi =
      Real.log qval + (Real.log xi + Real.log xi) by push_cast; ring]
  rw [Real.exp_add, Real.exp_add, Real.exp_log qval_pos, Real.exp_log hxi]
  ring

theorem stageWsum_tSix (xi : ℝ) (hxi : 0 < xi) :
    stageWsum tSix specSix 10000 xi 1 = 1 + xi + qval * xi ^ 2 := by
  rw [stageWsum, tSix_Z_one,
    Finset.sum_range_succ, Finset.sum_range_succ, Finset.sum_range_one,
    stageW_zero, stageW_tSix_one xi hxi, stageW_tSix_two xi hxi]

/-- The He mean ionization stage in `tSix`, in closed form. -/
theorem meanIon_tSix (xi : ℝ) (hxi : 0 < xi) :
    meanIon tSix specSix 10000 xi 1 = xi / (1 + xi + qval * xi ^ 2) := by
  rw [meanIon_eq tSix specSix 10000 xi 1 (by rw [tSix_Z_one]; norm_num),
    stageWsum_tSix xi hxi, tSix_Z_one,
    Finset.sum_range_succ, Finset.sum_range_one,
    stageW_tSix_one xi hxi]
  norm_num

/-! ## Claim C1 -/

/-- C1, amended: for every temperature and every ionization parameter, the
population matrix of `_calc_num` has exactly zero entries at invalid stages
(`stage ≥ atomicNumber[element]`), and the per-element sum over all stored
stages is strictly between 0 and 1 — it equals 1 minus the fraction in the
fully-stripped state, whose row is dropped from the matrix — rather than
exactly 1 as the original claim states. -/
theorem absori_population_normalization (t : Table) (spec : ℕ → ℝ) (temp xi : ℝ)
    (e : ℕ) (h1 : 1 ≤ t.Z e) (hZ : t.Z e ≤ 26) :
    (∀ s, t.Z e ≤ s → calcNum t spec temp xi s e = 0) ∧
    0 < numStageSum t spec temp xi e ∧ numStageSum t spec temp xi e < 1 :=
  ⟨fun s hs => calcNum_invalid t spec temp xi s e hs,
    numStageSum_pos t spec temp xi e h1 hZ,
    numStageSum_lt_one t spec temp xi e hZ⟩

/-- Witness for C1's amended theorem at a concrete admissible table,
`temp = 10^4 K > 0`, `xi = 1`, element 0 (hydrogen). -/
theorem absori_population_normalization_witness :
    (1 ≤ cTable.Z 0 ∧ cTable.Z 0 ≤ 26) ∧
    ((∀ s, cTable.Z 0 ≤ s → calcNum cTable (calcIonSpec cTable 2) 10000 1 s 0 = 0) ∧
      0 < numStageSum cTable (calcIonSpec cTable 2) 10000 1 0 ∧
      numStageSum cTable (calcIonSpec cTable 2) 10000 1 0 < 1) :=
  ⟨⟨by decide, by decide⟩,
    absori_population_normalization cTable (calcIonSpec cTable 2) 10000 1 0
      (by decide) (by decide)⟩

/-- Counterexample to C1 as stated: at a concrete admissible table with
`temp = 10^4 > 0` and `xi = 1`, the stage populations of element 0 do not
sum to 1 (the solver drops the bare-nucleus state, so the sum is < 1). -/
theorem absori_population_sum_ne_one :
    numStageSum cTable (calcIonSpec cTable 2) 10000 1 0 ≠ 1 :=
  ne_of_lt (numStageSum_lt_one cTable (calcIonSpec cTable 2) 10000 1 0 (by decide))

/-! ## Claim C6 -/

/-- C6, amended: at fixed temperature, increasing `xi > 0` strictly increases
the mean ionization stage completed by the dropped fully-stripped state
(i.e. `Σ s*num[s][e] + Z*(1 - Σ num[s][e])`), for every element with more
than one valid stage.  The mean over the stored stages alone is *not*
monotone (see the counterexample). -/
theorem absori_mean_ionization_mono (t : Table) (spec : ℕ → ℝ) (temp : ℝ)
    (e : ℕ) (h2 : 2 ≤ t.Z e) (hZ : t.Z e ≤ 26) (xi1 xi2 : ℝ) (hx1 : 0 < xi1)
    (h12 : xi1 < xi2) :
    meanIonFull t spec temp xi1 e < meanIonFull t spec temp xi2 e :=
  meanIonFull_strictMono t spec temp e (by omega) hZ xi1 xi2 hx1 h12

/-- Witness for C6's amended theorem: He (element 1, two valid stages) at
`temp = 10^4`, `xi` from 1 to 2. -/
theorem absori_mean_ionization_mono_witness :
    (2 ≤ cTable.Z 1 ∧ cTable.Z 1 ≤ 26 ∧ (0 : ℝ) < 1 ∧ (1 : ℝ) < 2) ∧
    meanIonFull cTable (calcIonSpec cTable 2) 10000 1 1 <
      meanIonFull cTable (calcIonSpec cTable 2) 10000 2 1 :=
  ⟨⟨by decide, by decide, by norm_num, by norm_num⟩,
    absori_mean_ionization_mono cTable (calcIonSpec cTable 2) 10000 1
      (by decide) (by decide) 1 2 (by norm_num) (by norm_num)⟩

/-- Counterexample to C6 as stated: in the concrete table `tSix`, at fixed
`temp = 10^4 K > 0`, for helium (element 1, `Z = 2 > 1` valid stages) the
population-weighted mean ionization stage at `xi2 = 100` is *smaller* than
at `xi1 = 1`, not larger: as `xi` grows, the population concentrates in the
bare state whose row the matrix drops. -/
theorem absori_mean_ionization_cex :
    meanIon tSix specSix 10000 100 1 < meanIon tSix specSix 10000 1 1 := by
  rw [meanIon_tSix 100 (by norm_num), meanIon_tSix 1 (by norm_num)]
  have hq := qval_gt
  have hq0 := qval_pos
  rw [div_lt_div_iff₀ (by nlinarith) (by nlinarith)]
  nlinarith

/-! ## Grid monotonicity and the interpolation cell -/

theorem be_mono_le (t : Table)
    (hm : ∀ j < 720, t.baseEnergy j < t.baseEnergy (j + 1)) :
    ∀ {i j : ℕ}, i ≤ j → j ≤ 720 → t.baseEnergy i ≤ t.baseEnergy j := by
  intro i j
  induction j with
  | zero =>
    intro hij _
    have : i = 0 := by omega
    rw [this]
  | succ n ih =>
    intro hij hj
    rcases Nat.lt_or_ge i (n + 1) with h | h
    · have h1 : t.baseEnergy i ≤ t.baseEnergy n := ih (by omega) (by omega)
      have h2 := hm n (by omega)
      linarith
    · have : i = n + 1 := by omega
      rw [this]

theorem be_mono_lt (t : Table)
    (hm : ∀ j < 720, t.baseEnergy j < t.baseEnergy (j + 1)) {i j : ℕ}
    (hij : i < j) (hj : j ≤ 720) : t.baseEnergy i < t.baseEnergy j := by
  have h1 : t.baseEnergy i ≤ t.baseEnergy (j - 1) :=
    be_mono_le t hm (by omega) (by omega)
  have h2 := hm (j - 1) (by omega)
  rw [Nat.sub_add_cancel (by omega : 1 ≤ j)] at h2
  linarith

/-- Number of grid points at or below `en` (the quantity whose decrement,
clamped, is `cellIdx`). -/
noncomputable def gridCount (t : Table) (en : ℝ) : ℕ :=
  ((Finset.range 721).filter fun i => t.baseEnergy i ≤ en).card

theorem cellIdx_eq (t : Table) (en : ℝ) :
    cellIdx t en = min 719 (gridCount t en - 1) := rfl

/-- The set of grid indices at or below `en` is an initial segment: since the
grid increases, membership is equivalent to being below the count. -/
theorem grid_mem_iff (t : Table)
    (hm : ∀ j < 720, t.baseEnergy j < t.baseEnergy (j + 1)) (en : ℝ) (b : ℕ) :
    b ∈ (Finset.range 721).filter (fun i => t.baseEnergy i ≤ en) ↔
      b < gridCount t en := by
  have hdown : ∀ a b : ℕ, a ≤ b →
      b ∈ (Finset.range 721).filter (fun i => t.baseEnergy i ≤ en) →
      a ∈ (Finset.range 721).filter (fun i => t.baseEnergy i ≤ en) := by
    intro a b hab hbF
    rw [Finset.mem_filter, Finset.mem_range] at hbF ⊢
    exact ⟨by omega, le_trans (be_mono_le t hm hab (by omega)) hbF.2⟩
  constructor
  · intro hb
    have hsub : Finset.range (b + 1) ⊆
        (Finset.range 721).filter (fun i => t.baseEnergy i ≤ en) := by
      intro a ha
      have ha' := Finset.mem_range.mp ha
      exact hdown a b (by omega) hb
    have := Finset.card_le_card hsub
    rw [Finset.card_range] at this
    rw [gridCount] at *
    omega
  · intro hb
    by_contra hbF
    have hsub : (Finset.range 721).filter (fun i => t.baseEnergy i ≤ en) ⊆
        Finset.range b := by
      intro a haF
      rw [Finset.mem_range]
      by_contra ha
      exact hbF (hdown b a (by omega) haF)
    have := Finset.card_le_card hsub
    rw [Finset.card_range] at this
    rw [gridCount] at hb
    omega

theorem gridCount_le (t : Table) (en : ℝ) : gridCount t en ≤ 721 := by
  have := Finset.card_filter_le (Finset.range 721) (fun i => t.baseEnergy i ≤ en)
  rwa [Finset.card_range] at this

theorem gridCount_pos (t : Table)
    (hm : ∀ j < 720, t.baseEnergy j < t.baseEnergy (j + 1)) (en : ℝ)
    (h0 : t.baseEnergy 0 ≤ en) : 1 ≤ gridCount t en := by
  have h0F : 0 ∈ (Finset.range 721).filter (fun i => t.baseEnergy i ≤ en) := by
    rw [Finset.mem_filter]
    exact ⟨Finset.mem_range.mpr (by omega), h0⟩
  have := (grid_mem_iff t hm en 0).mp h0F
  omega

/-- Bracketing of the interpolation cell: for an in-range energy, the cell
index is at most 719 and the energy lies between the cell's endpoints. -/
theorem cellIdx_bracket (t : Table)
    (hm : ∀ j < 720, t.baseEnergy j < t.baseEnergy (j + 1)) (en : ℝ)
    (h0 : t.baseEnergy 0 ≤ en) (h720 : en ≤ t.baseEnergy 720) :
    cellIdx t en ≤ 719 ∧ t.baseEnergy (cellIdx t en) ≤ en ∧
      en ≤ t.baseEnergy (cellIdx t en + 1) := by
  have hc721 := gridCount_le t en
  have hc1 := gridCount_pos t hm en h0
  refine ⟨by rw [cellIdx_eq]; omega, ?_, ?_⟩
  · have hmem : cellIdx t en ∈
        (Finset.range 721).filter (fun i => t.baseEnergy i ≤ en) := by
      rw [grid_mem_iff t hm en, cellIdx_eq]
      omega
    rw [Finset.mem_filter] at hmem
    exact hmem.2
  · rcases Nat.lt_or_ge (gridCount t en) 721 with hc | hc
    · have hidx : cellIdx t en + 1 = gridCount t en := by rw [cellIdx_eq]; omega
      have hnmem : gridCount t en ∉
          (Finset.range 721).filter (fun i => t.baseEnergy i ≤ en) := by
        rw [grid_mem_iff t hm en]
        omega
      rw [Finset.mem_filter, Finset.mem_range] at hnmem
      push_neg at hnmem
      have := hnmem (by omega)
      rw [hidx]
      linarith
    · have hidx : cellIdx t en + 1 = 720 := by rw [cellIdx_eq]; omega
      rw [hidx]
      exact h720

theorem linInterp_left (t : Table)
    (hm : ∀ j < 720, t.baseEnergy j < t.baseEnergy (j + 1)) (s e : ℕ) :
    linInterp t (t.baseEnergy 0) s e = t.sig e s 0 := by
  have hcell : cellIdx t (t.baseEnergy 0) = 0 := by
    have hc1 := gridCount_pos t hm (t.baseEnergy 0) (le_refl _)
    have h1F : 1 ∉ (Finset.range 721).filter
        (fun i => t.baseEnergy i ≤ t.baseEnergy 0) := by
      rw [Finset.mem_filter]
      rintro ⟨-, h⟩
      exact absurd h (not_le.mpr (be_mono_lt t hm (by omega) (by omega)))
    have hc2 : gridCount t (t.baseEnergy 0) ≤ 1 := by
      by_contra hc
      exact h1F ((grid_mem_iff t hm (t.baseEnergy 0) 1).mpr (by omega))
    rw [cellIdx_eq]
    omega
  rw [linInterp, hcell, sub_self, mul_zero, zero_div, add_zero]

theorem linInterp_right (t : Table)
    (hm : ∀ j < 720, t.baseEnergy j < t.baseEnergy (j + 1)) (s e : ℕ) :
    linInterp t (t.baseEnergy 720) s e = t.sig e s 720 := by
  have hcell : cellIdx t (t.baseEnergy 720) = 719 := by
    have hall : (Finset.range 721).filter
        (fun i => t.baseEnergy i ≤ t.baseEnergy 720) = Finset.range 721 := by
      apply Finset.filter_true_of_mem
      intro b hb
      have hb' := Finset.mem_range.mp hb
      exact be_mono_le t hm (by omega) (by omega)
    rw [cellIdx_eq, gridCount, hall, Finset.card_range]
    omega
  have hne : t.baseEnergy 720 - t.baseEnergy 719 ≠ 0 :=
    sub_ne_zero_of_ne (be_mono_lt t hm (by omega) (by omega)).ne'
  rw [linInterp, hcell]
  rw [show (719 : ℕ) + 1 = 720 from rfl, mul_div_assoc, div_self hne, mul_one]
  ring

/-! ## Claim C4 -/

/-- C4: the interpolator applies exactly one of three disjoint regimes to
each sample: above `baseEnergy[720]` the power-law tail
`sigma[720]*(E/baseEnergy[720])^(-3)`; below `baseEnergy[0]` the first
tabulated value unchanged; in range, the piecewise-linear interpolation of
the table (the value on the bracketing cell `[baseEnergy[j], baseEnergy[j+1]]`). -/
theorem absori_interp_regimes (t : Table) (ht : TableInv t) (ekev : ℝ) (s e : ℕ) :
    (t.baseEnergy 720 < 1000 * ekev →
      interpSigma t ekev s e =
        t.sig e s 720 * (1000 * ekev / t.baseEnergy 720) ^ (-(3 : ℝ))) ∧
    (1000 * ekev < t.baseEnergy 0 → interpSigma t ekev s e = t.sig e s 0) ∧
    (t.baseEnergy 0 ≤ 1000 * ekev → 1000 * ekev ≤ t.baseEnergy 720 →
      ∃ j, j ≤ 719 ∧ t.baseEnergy j ≤ 1000 * ekev ∧
        1000 * ekev ≤ t.baseEnergy (j + 1) ∧
        interpSigma t ekev s e = t.sig e s j +
          (t.sig e s (j + 1) - t.sig e s j) * (1000 * ekev - t.baseEnergy j) /
            (t.baseEnergy (j + 1) - t.baseEnergy j)) := by
  obtain ⟨-, hm, -, -, -⟩ := ht
  have hlt : t.baseEnergy 0 < t.baseEnergy 720 := be_mono_lt t hm (by omega) (by omega)
  refine ⟨fun h => ?_, fun h => ?_, fun ha hb => ?_⟩
  · rw [interpSigma, if_pos h, powerTail]
  · rw [interpSigma, if_neg (by push_neg; linarith), if_pos h]
  · obtain ⟨hj, hjl, hjr⟩ := cellIdx_bracket t hm (1000 * ekev) ha hb
    exact ⟨cellIdx t (1000 * ekev), hj, hjl, hjr, by
      rw [interpSigma, if_neg (not_lt.mpr hb), if_neg (not_lt.mpr ha), linInterp]⟩

/-- Witness for C4: a below-range sample on the concrete table. -/
theorem absori_interp_regimes_witness :
    (TableInv cTable ∧ 1000 * (0.0005 : ℝ) < cTable.baseEnergy 0) ∧
    interpSigma cTable 0.0005 0 0 = cTable.sig 0 0 0 :=
  ⟨⟨cTable_inv, by norm_num [cTable]⟩,
    (absori_interp_regimes cTable cTable_inv 0.0005 0 0).2.1 (by norm_num [cTable])⟩

/-! ## Claim C5 -/

/-- C5: at a sample whose eV value is exactly a grid boundary the
interpolator reproduces the tabulated value there, and the power-law tail
formula evaluated at `baseEnergy[720]` has scale factor 1, agreeing with the
in-range interpolation. -/
theorem absori_interp_boundary (t : Table) (ht : TableInv t) (s e : ℕ)
    (ek0 ek720 : ℝ) (h0 : 1000 * ek0 = t.baseEnergy 0)
    (h720 : 1000 * ek720 = t.baseEnergy 720) :
    interpSigma t ek0 s e = t.sig e s 0 ∧
    interpSigma t ek720 s e = t.sig e s 720 ∧
    powerTail t (t.baseEnergy 720) s e = t.sig e s 720 := by
  obtain ⟨-, hm, hbe0, -, -⟩ := ht
  have hlt : t.baseEnergy 0 < t.baseEnergy 720 := be_mono_lt t hm (by omega) (by omega)
  refine ⟨?_, ?_, ?_⟩
  · rw [interpSigma, h0, if_neg (not_lt.mpr hlt.le), if_neg (lt_irrefl _),
      linInterp_left t hm s e]
  · rw [interpSigma, h720, if_neg (lt_irrefl _), if_neg (not_lt.mpr hlt.le),
      linInterp_right t hm s e]
  · rw [powerTail, div_self (by linarith), Real.one_rpow, mul_one]

/-- Witness for C5 on the concrete table (`baseEnergy j = j + 1`, so the
boundary samples are `0.001` and `0.721` keV). -/
theorem absori_interp_boundary_witness :
    (TableInv cTable ∧ 1000 * (0.001 : ℝ) = cTable.baseEnergy 0 ∧
      1000 * (0.721 : ℝ) = cTable.baseEnergy 720) ∧
    (interpSigma cTable 0.001 0 0 = cTable.sig 0 0 0 ∧
      interpSigma cTable 0.721 0 0 = cTable.sig 0 0 720 ∧
      powerTail cTable (cTable.baseEnergy 720) 0 0 = cTable.sig 0 0 720) :=
  ⟨⟨cTable_inv, by norm_num [cTable], by norm_num [cTable]⟩,
    absori_interp_boundary cTable cTable_inv 0 0 0.001 0.721
      (by norm_num [cTable]) (by norm_num [cTable])⟩

/-! ## Nonnegativity of the interpolated cross-sections and of the opacity -/

theorem interpSigma_nonneg (t : Table) (ht : TableInv t) (ekev : ℝ) (s e : ℕ) :
    0 ≤ interpSigma t ekev s e := by
  obtain ⟨-, hm, hbe0, hsig, -⟩ := ht
  have hbe720 : 0 < t.baseEnergy 720 :=
    lt_of_lt_of_le hbe0 (be_mono_le t hm (by omega) (by omega))
  rw [interpSigma]
  split_ifs with h1 h2
  · rw [powerTail]
    exact mul_nonneg (hsig _ _ _)
      (Real.rpow_nonneg (div_nonneg (by linarith) hbe720.le) _)
  · exact hsig _ _ _
  · have h0 : t.baseEnergy 0 ≤ 1000 * ekev := not_lt.mp h2
    have h720 : 1000 * ekev ≤ t.baseEnergy 720 := not_lt.mp h1
    obtain ⟨hj, hjl, hjr⟩ := cellIdx_bracket t hm (1000 * ekev) h0 h720
    set j := cellIdx t (1000 * ekev) with hj_def
    have hcell : t.baseEnergy j < t.baseEnergy (j + 1) := hm _ (by omega)
    rw [linInterp, ← hj_def, mul_div_assoc]
    set tt := (1000 * ekev - t.baseEnergy j) /
      (t.baseEnergy (j + 1) - t.baseEnergy j) with htt_def
    have ht0 : 0 ≤ tt := div_nonneg (by linarith) (by linarith)
    have ht1 : tt ≤ 1 := by
      rw [htt_def, div_le_one (by linarith)]
      linarith
    have hs1 := hsig e s j
    have hs2 := hsig e s (j + 1)
    have key : t.sig e s j + (t.sig e s (j + 1) - t.sig e s j) * tt =
        t.sig e s j * (1 - tt) + t.sig e s (j + 1) * tt := by ring
    rw [key]
    exact add_nonneg (mul_nonneg hs1 (by linarith)) (mul_nonneg hs2 ht0)

theorem adjustAbundance_nonneg (ab : ℕ → ℝ) (hab : ∀ i, 0 ≤ ab i) (m f : ℝ)
    (i : ℕ) : 0 ≤ adjustAbundance ab m f i := by
  rw [adjustAbundance]
  split_ifs
  · exact mul_nonneg (hab i) (Real.rpow_nonneg (by norm_num) m)
  · exact mul_nonneg (hab i) (Real.rpow_nonneg (by norm_num) f)
  · exact hab i

theorem calcOpacity_nonneg (t : Table) (ht : TableInv t) (es : List ℝ)
    (temp xi gamma m f : ℝ) :
    ∀ op ∈ calcOpacity t es temp xi gamma m f, 0 ≤ op := by
  intro op hop
  rw [calcOpacity] at hop
  obtain ⟨ej, -, rfl⟩ := List.mem_map.mp hop
  apply mul_nonneg _ (by norm_num)
  apply Finset.sum_nonneg
  intro s _
  apply Finset.sum_nonneg
  intro e _
  exact mul_nonneg
    (mul_nonneg (calcNum_nonneg t (calcIonSpec t gamma) temp xi s e)
      (adjustAbundance_nonneg t.abundance ht.2.2.2.2 m f e))
    (interpSigma_nonneg t ht ej s e)

/-! ## Claim C7 -/

/-- C7: for positive energies, `NH ≥ 0` and an admissible table, `evaluate`
returns one transmission per input energy, each strictly positive and at
most 1. -/
theorem absori_evaluate_range (t : Table) (ht : TableInv t) (x : List ℝ)
    (hx : ∀ v ∈ x, 0 < v) (NH redshift temp xi gamma m f : ℝ) (hNH : 0 ≤ NH) :
    (evaluate t x NH redshift temp xi gamma m f).length = x.length ∧
    ∀ y ∈ evaluate t x NH redshift temp xi gamma m f, 0 < y ∧ y ≤ 1 := by
  constructor
  · rw [evaluate, calcOpacity]
    simp
  · intro y hy
    rw [evaluate] at hy
    obtain ⟨op, hop, rfl⟩ := List.mem_map.mp hy
    have hop0 : 0 ≤ op := calcOpacity_nonneg t ht _ temp xi gamma m f op hop
    refine ⟨Real.exp_pos _, ?_⟩
    have : Real.exp (-(NH * op)) ≤ Real.exp 0 :=
      Real.exp_le_exp.mpr (by nlinarith)
    rwa [Real.exp_zero] at this

/-- Witness for C7 at the concrete table, `x = [1]` keV, `NH = 1`. -/
theorem absori_evaluate_range_witness :
    (TableInv cTable ∧ (∀ v ∈ [(1 : ℝ)], 0 < v) ∧ (0 : ℝ) ≤ 1) ∧
    ((evaluate cTable [1] 1 0 10000 1 2 0 0).length = [(1 : ℝ)].length ∧
      ∀ y ∈ evaluate cTable [1] 1 0 10000 1 2 0 0, 0 < y ∧ y ≤ 1) :=
  ⟨⟨cTable_inv, by norm_num, by norm_num⟩,
    absori_evaluate_range cTable cTable_inv [1] (by norm_num) 1 0 10000 1 2 0
      0 (by norm_num)⟩

/-! ## Claim C8 -/

/-- C8: the abundance offsets multiply the copied entries 2..8 (C..S) by
`10^metals_offset` and entry 9 (Fe) by `10^iron_offset`, leave H and He
untouched, and the stored table comes back unchanged from the evaluation. -/
theorem absori_abundance_offsets (ab : ℕ → ℝ) (m f : ℝ) (t : Table)
    (es : List ℝ) (temp xi gamma : ℝ) :
    (∀ i, 2 ≤ i → i ≤ 8 → adjustAbundance ab m f i = ab i * (10 : ℝ) ^ m) ∧
    adjustAbundance ab m f 9 = ab 9 * (10 : ℝ) ^ f ∧
    adjustAbundance ab m f 0 = ab 0 ∧ adjustAbundance ab m f 1 = ab 1 ∧
    (calcOpacityS t es temp xi gamma m f).1 = t := by
  refine ⟨fun i h2 h8 => ?_, ?_, ?_, ?_, rfl⟩
  · rw [adjustAbundance, if_pos ⟨h2, h8⟩]
  · rw [adjustAbundance, if_neg (by omega), if_pos rfl]
  · rw [adjustAbundance, if_neg (by omega), if_neg (by omega)]
  · rw [adjustAbundance, if_neg (by omega), if_neg (by omega)]

/-- Witness for C8 at index 2 with unit abundances and zero offsets. -/
theorem absori_abundance_offsets_witness :
    ((2 : ℕ) ≤ 2 ∧ (2 : ℕ) ≤ 8) ∧
    adjustAbundance (fun _ => 1) 0 0 2 = 1 * (10 : ℝ) ^ (0 : ℝ) ∧
    (calcOpacityS cTable [] 10000 1 2 0 0).1 = cTable :=
  ⟨⟨by norm_num, by norm_num⟩,
    (absori_abundance_offsets (fun _ => 1) 0 0 cTable [] 10000 1 2).1 2
      (by norm_num) (by norm_num),
    (absori_abundance_offsets (fun _ => 1) 0 0 cTable [] 10000 1 2).2.2.2.2⟩

/-! ## Claim C9 -/

/-- Counterexample to C9 as stated: on the concrete grid `be j = j + 1`,
the endpoint entry `deltaE[0]` is the full first spacing `1`, not the
trapezoidal end weight `1/2`. -/
theorem absori_deltaE_endpoint_cex :
    deltaE cTable.baseEnergy 0 ≠ trapWeight cTable.baseEnergy 0 := by
  rw [deltaE, trapWeight]
  norm_num [cTable]

/-- C9, amended: the interior entries (`1 ≤ i ≤ 719`) of `deltaE` are the
trapezoidal weights `(be[i+1]-be[i-1])/2`, while the endpoint entries are
the full one-sided spacings — twice the trapezoidal end weights; the whole
vector is a function of `baseEnergy` alone, fixed at load time. -/
theorem absori_deltaE_widths (be : ℕ → ℝ) :
    (∀ i, 1 ≤ i → i ≤ 719 →
      deltaE be i = (be (i + 1) - be (i - 1)) / 2 ∧
        deltaE be i = trapWeight be i) ∧
    deltaE be 0 = be 1 - be 0 ∧ deltaE be 0 = 2 * trapWeight be 0 ∧
    deltaE be 720 = be 720 - be 719 ∧ deltaE be 720 = 2 * trapWeight be 720 := by
  refine ⟨fun i h1 h719 => ⟨?_, ?_⟩, ?_, ?_, ?_, ?_⟩
  · rw [deltaE, if_neg (by omega), if_neg (by omega)]
  · rw [deltaE, trapWeight, if_neg (by omega), if_neg (by omega),
      if_neg (by omega), if_neg (by omega)]
  · rw [deltaE, if_pos rfl]
  · rw [deltaE, trapWeight, if_pos rfl, if_pos rfl]
    ring
  · rw [deltaE, if_neg (by omega), if_pos rfl]
  · rw [deltaE, trapWeight, if_neg (by omega), if_pos rfl, if_neg (by omega),
      if_pos rfl]
    ring

/-- Witness for C9's amended theorem at interior index 1. -/
theorem absori_deltaE_widths_witness :
    ((1 : ℕ) ≤ 1 ∧ (1 : ℕ) ≤ 719) ∧
    deltaE cTable.baseEnergy 1 =
      (cTable.baseEnergy 2 - cTable.baseEnergy 0) / 2 :=
  ⟨⟨le_refl 1, by norm_num⟩,
    ((absori_deltaE_widths cTable.baseEnergy).1 1 (le_refl 1) (by norm_num)).1⟩

/-! ## Claim C10 -/

/-- C10: redshift enters `Absori.evaluate` only through the energy rescaling
`x * (1 + redshift)`: evaluating at redshift `z` equals evaluating the
rescaled energies at redshift 0. -/
theorem absori_redshift_rescaling (t : Table) (x : List ℝ)
    (NH redshift temp xi gamma m f : ℝ) (hz : 0 ≤ redshift) :
    evaluate t x NH redshift temp xi gamma m f =
      evaluate t (x.map fun v => v * (1 + redshift)) NH 0 temp xi gamma m f := by
  have hmap : ((fun v => v * (1 + (0 : ℝ))) ∘ fun v => v * (1 + redshift)) =
      fun v => v * (1 + redshift) := by
    funext v
    simp
  rw [evaluate, evaluate, List.map_map, hmap]

/-- Witness for C10 with `x = [2]`, `redshift = 1`. -/
theorem absori_redshift_rescaling_witness :
    ((0 : ℝ) ≤ 1) ∧
    evaluate cTable [2] 1 1 10000 1 2 0 0 =
      evaluate cTable ([2].map fun v => v * (1 + 1)) 1 0 10000 1 2 0 0 :=
  ⟨by norm_num,
    absori_redshift_rescaling cTable [2] 1 1 10000 1 2 0 0 (by norm_num)⟩

/-! ## Claims C2 and C3: the `nz = 0` division fault -/

/-- C2 failing input: `redshift = 0.01 < 0.02` gives `nz = 0`, and the
integrator evaluates the unguarded `zsam = redshift / nz` instead of
returning transmission 1 (spec §4.7/§7 requires the `nz == 0` edge case to
return no absorption). -/
theorem absori_integrated_nz_zero_fault :
    evaluateIntegrated cTable [1] 1e-4 0 0.01 10000 1 2 0 0 =
      Except.error "ZeroDivisionError: float division by zero" := by
  rw [evaluateIntegrated]
  norm_num

/-- C3 failing input: even with `n0 = 0` (which should force transmission 1
at every redshift), `redshift = 0.01` still hits the `nz = 0` division. -/
theorem absori_integrated_n0_zero_fault :
    evaluateIntegrated cTable [1] 0 0 0.01 10000 1 2 0 0 =
      Except.error "ZeroDivisionError: float division by zero" := by
  rw [evaluateIntegrated]
  norm_num

/-- The remainder of claim C3 does hold once at least one shell forms
(`redshift ≥ 0.02`): with `n0 = 0` every shell density vanishes and the
transmission is exactly 1 for every energy. -/
theorem evaluateIntegrated_n0_zero (t : Table) (x : List ℝ)
    (delta redshift temp xi gamma m f : ℝ) (h : (0.02 : ℝ) ≤ redshift) :
    evaluateIntegrated t x 0 delta redshift temp xi gamma m f =
      Except.ok (x.map fun _ => 1) := by
  have hfl : (1 : ℤ) ≤ ⌊redshift / 0.02⌋ := by
    apply Int.le_floor.mpr
    push_cast
    rw [le_div_iff₀ (by norm_num)]
    linarith
  have hnz : (⌊redshift / 0.02⌋).toNat ≠ 0 := by omega
  rw [evaluateIntegrated, if_neg hnz]
  congr 1
  apply List.map_congr_left
  intro xj _
  have hzero : ∀ i ∈ Finset.range (⌊redshift / 0.02⌋).toNat,
      shellTau t xj 0 delta temp xi gamma m f
        (redshift / ((⌊redshift / 0.02⌋).toNat : ℝ)) i = 0 := by
    intro i _
    rw [shellTau]
    ring
  rw [Finset.sum_eq_zero hzero, neg_zero, Real.exp_zero]

end Absori
